import Mathlib

/-!
Verification development for the n8n Oracle Database node
(src/src/nodes/OracleDb/OracleDb.node.ts).

The embedding models JavaScript values flowing through the node as the
inductive `JsValue`, the driver-facing scalar domain as `OracleVal`, the
helper `convertToOracleType` as a direct transcription of the source's
if/else-if chain, the per-operation statement builders as transcriptions
of the corresponding branches of `execute`, and the per-record loop with
its continue-on-fail handling, driver outcomes and connection lifecycle
as an explicit state-passing function over a scripted environment.

JSON.stringify / JSON.parse (host-runtime functions used by the code) are
modelled over `JsValue`: numbers as integers, strings of Unicode scalar
values, objects as key/value lists in insertion order, with the standard
stringify behaviour for undefined/function members (dropped in objects,
null in arrays) and Date/Buffer members (toJSON).
-/

set_option maxHeartbeats 1000000

namespace OracleDbNode

/-- A JavaScript-like runtime value as the node sees it: the JSON scalars,
`undefined`, `Date` (carried as its ISO string, which is what `toJSON`
yields), `Buffer` (carried as its byte list), arrays, plain objects
(field lists in insertion order, keys unique in real JS), and a catch-all
for remaining primitives (symbol/function/…), carried as their
`String(value)` rendering. -/
inductive JsValue where
  | vnull
  | vundefined
  | vbool (b : Bool)
  | vnum (n : Int)
  | vstr (s : String)
  | vdate (iso : String)
  | vbuffer (bytes : List Nat)
  | varr (elems : List JsValue)
  | vobj (fields : List (String × JsValue))
  | vother (render : String)

/-- Hex digit used by the \u00XX escapes emitted by JSON.stringify. -/
def hexDigitChar (d : Nat) : Char := Nat.digitChar d

/-- One character, escaped exactly as JSON.stringify escapes string
characters: quote, backslash and the named control escapes, \u00XX for the
remaining control characters, everything else verbatim. -/
def escapeChar (c : Char) : List Char :=
  if c = '"' then '\\' :: '"' :: []
  else if c = '\\' then '\\' :: '\\' :: []
  else if c = '\x08' then '\\' :: 'b' :: []
  else if c = '\t' then '\\' :: 't' :: []
  else if c = '\n' then '\\' :: 'n' :: []
  else if c = '\x0c' then '\\' :: 'f' :: []
  else if c = '\r' then '\\' :: 'r' :: []
  else if c.toNat < 32 then
    '\\' :: 'u' :: '0' :: '0' :: hexDigitChar (c.toNat / 16) :: hexDigitChar (c.toNat % 16) :: []
  else [c]

/-- Escape a character list, character by character. -/
def escapeChars : List Char → List Char
  | [] => []
  | c :: cs => escapeChar c ++ escapeChars cs

/-- A JSON string literal for `s`: opening quote, escaped body, closing quote. -/
def quoteStr (s : String) : List Char :=
  '"' :: (escapeChars s.data ++ ['"'])

/-- Decimal digit characters, most significant first, structurally
recursive on a fuel bound (any fuel above the number works, since the
number shrinks by a factor of ten each step). -/
def natCharsAux : Nat → Nat → List Char
  | 0, _ => []
  | fuel + 1, n =>
    if n < 10 then [Nat.digitChar n]
    else natCharsAux fuel (n / 10) ++ [Nat.digitChar (n % 10)]

/-- Decimal digit characters of a natural number, most significant first. -/
def natChars (n : Nat) : List Char := natCharsAux (n + 1) n

/-- Decimal rendering of an integer: optional minus sign then digits. -/
def intChars (i : Int) : List Char :=
  if i < 0 then '-' :: natChars i.natAbs else natChars i.natAbs

/-- Comma-join a list of character lists (JSON.stringify emits no spaces). -/
def joinComma : List (List Char) → List Char
  | [] => []
  | [x] => x
  | x :: y :: xs => x ++ ',' :: joinComma (y :: xs)

/-- What Buffer.prototype.toJSON yields, stringified: an object with a
"type":"Buffer" tag and the byte array under "data". -/
def bufferJsonChars (bytes : List Nat) : List Char :=
  "\x7b\"type\":\"Buffer\",\"data\":[".data
    ++ joinComma (bytes.map natChars) ++ "]\x7d".data

mutual
/-- JSON.stringify on one value, as a character list; `none` when the value
is dropped in object position (undefined, functions, symbols), which is
what JSON.stringify does. Date serializes via toJSON (its ISO string),
Buffer via its toJSON object. -/
def stringifyChars : JsValue → Option (List Char)
  | .vnull => some "null".data
  | .vundefined => none
  | .vbool true => some "true".data
  | .vbool false => some "false".data
  | .vnum n => some (intChars n)
  | .vstr s => some (quoteStr s)
  | .vdate iso => some (quoteStr iso)
  | .vbuffer bytes => some (bufferJsonChars bytes)
  | .varr elems => some ('[' :: (joinComma (stringifyElems elems) ++ [']']))
  | .vobj fields => some ('\x7b' :: (joinComma (stringifyFields fields) ++ ['\x7d']))
  | .vother _ => none

/-- Array elements: a member that would be dropped renders as null instead. -/
def stringifyElems : List JsValue → List (List Char)
  | [] => []
  | x :: xs => ((stringifyChars x).getD "null".data) :: stringifyElems xs

/-- Object members: quoted key, colon, value; dropped members vanish. -/
def stringifyFields : List (String × JsValue) → List (List Char)
  | [] => []
  | (k, v) :: fs =>
    match stringifyChars v with
    | some sv => (quoteStr k ++ ':' :: sv) :: stringifyFields fs
    | none => stringifyFields fs
end

/-- JSON.stringify as the node calls it (always on an object or array, for
which it always yields a string; the default is unreachable there). -/
def jsonStringify (v : JsValue) : String :=
  String.mk ((stringifyChars v).getD "null".data)

/-- The scalar domain the Oracle driver's bind mechanism accepts, as
produced by `convertToOracleType`: null, numbers, strings, Date values
and Buffer values. -/
inductive OracleVal where
  | onull
  | onum (n : Int)
  | ostr (s : String)
  | odate (iso : String)
  | obuffer (bytes : List Nat)
deriving DecidableEq

/-- Transcription of `convertToOracleType` (OracleDb.node.ts lines 14-30),
branch for branch in source order: null/undefined, boolean, instanceof
Date, instanceof Buffer, typeof object (JSON.stringify), string/number
pass-through, and the final String(value) coercion. Arrays have typeof
object in JS, so they take the stringify branch. -/
def convertToOracleType (value : JsValue) : OracleVal :=
  match value with
  | .vnull => .onull
  | .vundefined => .onull
  | .vbool b => .onum (if b then 1 else 0)
  | .vdate iso => .odate iso
  | .vbuffer bytes => .obuffer bytes
  | .vobj fields => .ostr (jsonStringify (.vobj fields))
  | .varr elems => .ostr (jsonStringify (.varr elems))
  | .vstr s => .ostr s
  | .vnum n => .onum n
  | .vother render => .ostr render

/-- One input item's json payload (or a parsed parameter object): a JS
object as a field list in insertion order. -/
abbrev Row := List (String × JsValue)

/-- Property access `obj[key]`: the bound value when the key is present,
undefined otherwise (JS keys are unique, so first match is the match). -/
def getField (row : Row) (key : String) : JsValue :=
  match row with
  | [] => .vundefined
  | (k, v) :: rest => if k = key then v else getField rest key

/-- The node's Options collection as getNodeParameter returns it: an entry
is absent (undefined) unless the user set it; the source applies `??`
defaults at each use site. -/
structure NodeOptions where
  autoCommit : Option Bool
  fetchSize : Option Nat
  maxRows : Option Nat
deriving DecidableEq

/-- The oracledb ExecuteOptions object passed to connection.execute: a
property is `none` when the branch's object literal does not set it (the
driver then falls back to its own default). -/
structure ExecOptions where
  autoCommit : Bool
  fetchArraySize : Option Nat
  maxRows : Option Nat
  outFormatObject : Bool
deriving DecidableEq

/-- A fully built call to connection.execute: SQL text, named binds in
insertion order, and the execute options. -/
structure Stmt where
  sql : String
  binds : List (String × OracleVal)
  opts : ExecOptions
deriving DecidableEq

/-- The `{ autoCommit: (options.autoCommit as boolean) ?? true }` execute
options literal used by the insert, update, delete and executeProcedure
branches. -/
def autoCommitOnly (options : NodeOptions) : ExecOptions :=
  { autoCommit := options.autoCommit.getD true
    fetchArraySize := none
    maxRows := none
    outFormatObject := false }

/-- The forEach body of the insert branch: from the column list and the
0-based index, the bind list (val1, val2, … paired with the normalized
fields of the current item) and the placeholder list (:val1, :val2, …). -/
def insertLoop (row : Row) : List String → Nat → List (String × OracleVal) × List String
  | [], _ => ([], [])
  | col :: rest, idx =>
    let paramName := "val" ++ toString (idx + 1)
    let (binds, values) := insertLoop row rest (idx + 1)
    ((paramName, convertToOracleType (getField row col)) :: binds,
     (":" ++ paramName) :: values)

/-- Transcription of the insert branch (lines 302-323): split the columns
string on commas, trim each entry, bind each column's field from the
current item under val1…, and assemble the INSERT statement; the execute
options literal sets only autoCommit. -/
def buildInsert (table columns : String) (row : Row) (options : NodeOptions) : Stmt :=
  let columnList := (columns.splitOn ",").map (fun c => c.trim)
  let (binds, values) := insertLoop row columnList 0
  { sql := "INSERT INTO " ++ table ++ " (" ++ String.intercalate "," columnList
      ++ ") VALUES (" ++ String.intercalate "," values ++ ")"
    binds := binds
    opts := autoCommitOnly options }

/-- The SET-clause loop of the update branch: walks Object.entries of the
item skipping the update key, producing the assignment texts and the valN
binds with paramIndex threaded exactly like the source's mutable counter;
also returns the final paramIndex (used for the keyN bind). -/
def updateLoop (updateKey : String) : Row → Nat → List String × List (String × OracleVal) × Nat
  | [], paramIndex => ([], [], paramIndex)
  | (key, value) :: rest, paramIndex =>
    if key != updateKey then
      let (updates, binds, final) := updateLoop updateKey rest (paramIndex + 1)
      ((key ++ " = :val" ++ toString paramIndex) :: updates,
       ("val" ++ toString paramIndex, convertToOracleType value) :: binds,
       final)
    else
      updateLoop updateKey rest paramIndex

/-- Transcription of the update branch (lines 331-360): SET assignments
from every non-key field in record order, the key's value bound after the
loop under key{paramIndex}, and the WHERE clause on the update key. -/
def buildUpdate (table updateKey : String) (itemData : Row) (options : NodeOptions) : Stmt :=
  let updateKeyValue := getField itemData updateKey
  let (updates, valBinds, paramIndex) := updateLoop updateKey itemData 1
  { sql := "UPDATE " ++ table ++ " SET " ++ String.intercalate ", " updates
      ++ " WHERE " ++ updateKey ++ " = :key" ++ toString paramIndex
    binds := valBinds ++ [("key" ++ toString paramIndex, convertToOracleType updateKeyValue)]
    opts := autoCommitOnly options }

/-- Transcription of the delete branch (lines 368-379): a single
deleteValue bind from the item's delete-key field. -/
def buildDelete (table deleteKey : String) (row : Row) (options : NodeOptions) : Stmt :=
  { sql := "DELETE FROM " ++ table ++ " WHERE " ++ deleteKey ++ " = :deleteValue"
    binds := [("deleteValue", convertToOracleType (getField row deleteKey))]
    opts := autoCommitOnly options }

/-- The Object.entries loop of the executeProcedure branch: binds each
parameter entry (normalized) under its own name and collects the :name
placeholders in the same order. -/
def procLoop : Row → List (String × OracleVal) × List String
  | [] => ([], [])
  | (key, value) :: rest =>
    let (binds, names) := procLoop rest
    ((key, convertToOracleType value) :: binds, (":" ++ key) :: names)

/-- Transcription of the executeProcedure branch (lines 387-414): the
BEGIN …; END; block with the ordered placeholders. -/
def buildProcedure (procedure : String) (procedureParams : Row) (options : NodeOptions) : Stmt :=
  let (binds, paramNames) := procLoop procedureParams
  { sql := "BEGIN " ++ procedure ++ "(" ++ String.intercalate ", " paramNames ++ "); END;"
    binds := binds
    opts := autoCommitOnly options }

/-- The Object.entries loop of the executeQuery branch, normalizing each
query parameter into the bind map. -/
def queryBinds : Row → List (String × OracleVal)
  | [] => []
  | (key, value) :: rest => (key, convertToOracleType value) :: queryBinds rest

/-- Transcription of the executeQuery branch (lines 262-288): the query
text verbatim; the execute options literal sets autoCommit, fetchArraySize
(from the fetchSize option), maxRows and the object out-format. -/
def buildQuery (query : String) (queryParams : Row) (options : NodeOptions) : Stmt :=
  { sql := query
    binds := queryBinds queryParams
    opts :=
      { autoCommit := options.autoCommit.getD true
        fetchArraySize := some (options.fetchSize.getD 100)
        maxRows := some (options.maxRows.getD 0)
        outFormatObject := true } }

/-- The operation selector, as resolved once before the loop; `other`
covers any selector matching none of the five handled branches. -/
inductive Operation where
  | executeQuery
  | insert
  | update
  | delete
  | executeProcedure
  | other (name : String)
deriving DecidableEq

/-- Everything execute resolves outside the per-item branches: the
operation, the branch parameters, the options collection, and the host's
continueOnFail flag. -/
structure NodeConfig where
  operation : Operation
  query : String
  queryParams : Row
  table : String
  columns : String
  updateKey : String
  deleteKey : String
  procedure : String
  procedureParams : Row
  options : NodeOptions
  continueOnFail : Bool

/-- What one connection.execute call comes back with, as the node reads
it: an optional row array, an optional rowsAffected count, and optional
out-binds. -/
structure DriverResult where
  rows : Option (List Row)
  rowsAffected : Option Nat
  outBinds : Option Row

/-- One scripted driver call: the call either throws with a message or
returns a result. -/
inductive DriverOutcome where
  | failure (msg : String)
  | success (res : DriverResult)

/-- The `{success: true, rowsAffected: result.rowsAffected ?? 0}` summary
record. -/
def summaryRecord (res : DriverResult) : JsValue :=
  .vobj [("success", .vbool true), ("rowsAffected", .vnum (res.rowsAffected.getD 0))]

/-- The `{error: message}` record pushed when an item fails under
continueOnFail. -/
def errorRecord (msg : String) : JsValue :=
  .vobj [("error", .vstr msg)]

/-- The records pushed onto returnData for one successfully executed item:
executeQuery spreads the returned rows one record each (or pushes a
summary when the driver returned no row array — an empty row array spreads
to nothing); insert, update and delete push a summary; executeProcedure
pushes success together with `result.outBinds || {}` under the outBinds
key; an unmatched operation pushes nothing. -/
def itemOutputs : Operation → DriverResult → List JsValue
  | .executeQuery, res =>
    match res.rows with
    | some rows => rows.map (fun r => .vobj r)
    | none => [summaryRecord res]
  | .insert, res => [summaryRecord res]
  | .update, res => [summaryRecord res]
  | .delete, res => [summaryRecord res]
  | .executeProcedure, res =>
    [.vobj [("success", .vbool true), ("outBinds", .vobj (res.outBinds.getD []))]]
  | .other _, _ => []

/-- The statement the current item's branch builds and hands to
connection.execute; none when the operation matches no branch (then no
call is made and nothing is pushed). -/
def builtStmt (cfg : NodeConfig) (item : Row) : Option Stmt :=
  match cfg.operation with
  | .executeQuery => some (buildQuery cfg.query cfg.queryParams cfg.options)
  | .insert => some (buildInsert cfg.table cfg.columns item cfg.options)
  | .update => some (buildUpdate cfg.table cfg.updateKey item cfg.options)
  | .delete => some (buildDelete cfg.table cfg.deleteKey item cfg.options)
  | .executeProcedure => some (buildProcedure cfg.procedure cfg.procedureParams cfg.options)
  | .other _ => none

/-- The body of one loop iteration, inside its try: build the statement,
call the driver once if a branch matched, and compute the pushed records;
a throw surfaces as .error. The second component records the
connection.execute calls this iteration made (item index and statement). -/
def itemStep (cfg : NodeConfig) (driver : Nat → DriverOutcome) (i : Nat) (item : Row) :
    Except String (List JsValue) × List (Nat × Stmt) :=
  match builtStmt cfg item with
  | none => (.ok [], [])
  | some stmt =>
    match driver i with
    | .failure msg => (.error msg, [(i, stmt)])
    | .success res => (.ok (itemOutputs cfg.operation res), [(i, stmt)])

/-- The for-loop over the items with its catch: on a per-item error, when
continueOnFail is set push the {error} record and continue with the next
item, otherwise rethrow, abandoning the loop. Returns the accumulated
returnData (or the propagated error) plus the trace of driver calls. -/
def execLoop (cfg : NodeConfig) (driver : Nat → DriverOutcome) :
    Nat → List Row → Except String (List JsValue) × List (Nat × Stmt)
  | _, [] => (.ok [], [])
  | i, item :: rest =>
    let (r, calls) := itemStep cfg driver i item
    match r with
    | .ok outs =>
      let (r2, calls2) := execLoop cfg driver (i + 1) rest
      (r2.map (fun outs2 => outs ++ outs2), calls ++ calls2)
    | .error msg =>
      if cfg.continueOnFail then
        let (r2, calls2) := execLoop cfg driver (i + 1) rest
        (r2.map (fun outs2 => errorRecord msg :: outs2), calls ++ calls2)
      else
        (.error msg, calls)

/-- The abort-free flattening of the loop: each item's block of records in
input order, a failing item's block being the single {error} record. Under
continueOnFail this is exactly what the loop returns. -/
def itemBlocks (cfg : NodeConfig) (driver : Nat → DriverOutcome) :
    Nat → List Row → List JsValue
  | _, [] => []
  | i, item :: rest =>
    (match (itemStep cfg driver i item).1 with
      | .ok outs => outs
      | .error msg => [errorRecord msg])
    ++ itemBlocks cfg driver (i + 1) rest

/-- The scripted environment of one invocation: whether getConnection
throws (and with what message), the behaviour of each connection.execute
call by item index, and whether connection.close throws. -/
structure World where
  connectFailure : Option String
  driver : Nat → DriverOutcome
  closeFailure : Bool

/-- The observable outcome of one execute invocation: the returned records
or the thrown error's message, and how many times connection.close was
invoked. -/
structure ExecOutcome where
  result : Except String (List JsValue)
  closeCalls : Nat

/-- Transcription of the whole execute method's control flow (lines
224-451): when getConnection throws, the outer catch wraps the error with
its message preserved and rethrows, and the finally block has no
connection to close; otherwise the loop runs and the finally block closes
the acquired connection once — a throw from close is caught, logged and
discarded, so it never changes the outcome. -/
def execute (cfg : NodeConfig) (w : World) (items : List Row) : ExecOutcome :=
  match w.connectFailure with
  | some msg => { result := .error msg, closeCalls := 0 }
  | none =>
    let loopOutcome := (execLoop cfg w.driver 0 items).1
    let closeOutcome : Except String Unit :=
      if w.closeFailure then .error "close failed" else .ok ()
    match closeOutcome with
    | .ok _ => { result := loopOutcome, closeCalls := 1 }
    | .error _ => { result := loopOutcome, closeCalls := 1 }

/-- A concrete executeQuery configuration with continue-past-failure
enabled, for the concrete instances of the theorems. -/
def sampleConfig : NodeConfig :=
  { operation := .executeQuery
    query := "SELECT 1"
    queryParams := []
    table := ""
    columns := ""
    updateKey := "id"
    deleteKey := "id"
    procedure := ""
    procedureParams := []
    options := ⟨none, none, none⟩
    continueOnFail := true }

/-- A concrete driver script: the first call returns two rows, every later
call throws. -/
def sampleDriver : Nat → DriverOutcome := fun i =>
  if i = 0 then
    .success { rows := some [[("a", .vnum 1)], [("a", .vnum 2)]], rowsAffected := none,
               outBinds := none }
  else
    .failure "ORA-00001"

mutual
/-- Whether a value is exactly JSON-representable: null, booleans, numbers,
strings, and arrays/objects of such with pairwise-distinct object keys.
undefined, functions/symbols, Dates and Buffers are not: stringify drops
or rewrites those. -/
def jsonSafe : JsValue → Bool
  | .vnull => true
  | .vbool _ => true
  | .vnum _ => true
  | .vstr _ => true
  | .varr elems => jsonSafeList elems
  | .vobj fields => decide ((fields.map Prod.fst).Nodup) && jsonSafeFields fields
  | _ => false

/-- Every element of the list is JSON-representable. -/
def jsonSafeList : List JsValue → Bool
  | [] => true
  | x :: xs => jsonSafe x && jsonSafeList xs

/-- Every field value of the list is JSON-representable. -/
def jsonSafeFields : List (String × JsValue) → Bool
  | [] => true
  | kv :: fs => jsonSafe kv.2 && jsonSafeFields fs
end

/-- Whether a value is composite (a plain object or an array), i.e. takes
the JSON.stringify branch of the normalizer. -/
def isComposite : JsValue → Bool
  | .vobj _ => true
  | .varr _ => true
  | _ => false

/-- An ASCII decimal digit. -/
def isDigitChar (c : Char) : Bool := '0' ≤ c && c ≤ '9'

/-- Split a leading run of decimal digits from the input. -/
def takeDigits : List Char → List Char × List Char
  | c :: cs =>
    if isDigitChar c then
      let (ds, r) := takeDigits cs
      (c :: ds, r)
    else ([], c :: cs)
  | [] => ([], [])

/-- Fold decimal digit characters into a number, left to right. -/
def digitsToNat (acc : Nat) : List Char → Nat
  | [] => acc
  | c :: cs => digitsToNat (acc * 10 + (c.toNat - 48)) cs

/-- Parse a JSON number. The model's numbers are integers, so only an
optional minus sign and a digit run are consumed (fractions and exponents,
which the model never prints, are not modelled). -/
def parseNumber (cs : List Char) : Option (Int × List Char) :=
  match cs with
  | '-' :: rest =>
    let (ds, r) := takeDigits rest
    if ds.isEmpty then none else some (-(digitsToNat 0 ds : Int), r)
  | _ =>
    let (ds, r) := takeDigits cs
    if ds.isEmpty then none else some ((digitsToNat 0 ds : Int), r)

/-- The value of one hexadecimal digit character. -/
def hexVal (c : Char) : Option Nat :=
  if '0' ≤ c && c ≤ '9' then some (c.toNat - 48)
  else if 'a' ≤ c && c ≤ 'f' then some (c.toNat - 87)
  else if 'A' ≤ c && c ≤ 'F' then some (c.toNat - 55)
  else none

/-- Parse a JSON string body after the opening quote: plain characters up
to the closing quote, with the named escapes and \uXXXX. -/
def parseStringBody : List Char → List Char → Option (String × List Char)
  | '"' :: rest, acc => some (String.mk acc.reverse, rest)
  | '\\' :: 'u' :: a :: b :: c :: d :: rest, acc =>
    (match hexVal a, hexVal b, hexVal c, hexVal d with
     | some va, some vb, some vc, some vd =>
       parseStringBody rest (Char.ofNat (((va * 16 + vb) * 16 + vc) * 16 + vd) :: acc)
     | _, _, _, _ => none)
  | '\\' :: e :: rest, acc =>
    (match e with
     | '"' => some '"'
     | '\\' => some '\\'
     | '/' => some '/'
     | 'b' => some '\x08'
     | 'f' => some '\x0c'
     | 'n' => some '\n'
     | 'r' => some '\r'
     | 't' => some '\t'
     | _ => none).bind
      (fun ch => parseStringBody rest (ch :: acc))
  | ['\\'], _ => none
  | c :: rest, acc => parseStringBody rest (c :: acc)
  | [], _ => none

mutual
/-- Parse one JSON value, as JSON.stringify prints them (the model elides
inter-token whitespace, which stringify never emits); fuel bounds the
nesting and makes the recursion structural. -/
def parseVal : Nat → List Char → Option (JsValue × List Char)
  | 0, _ => none
  | fuel + 1, cs =>
    match cs with
    | 'n' :: 'u' :: 'l' :: 'l' :: rest => some (.vnull, rest)
    | 't' :: 'r' :: 'u' :: 'e' :: rest => some (.vbool true, rest)
    | 'f' :: 'a' :: 'l' :: 's' :: 'e' :: rest => some (.vbool false, rest)
    | '"' :: rest => (parseStringBody rest []).map (fun p => (.vstr p.1, p.2))
    | '[' :: rest =>
      (match rest with
       | ']' :: r2 => some (.varr [], r2)
       | _ => (parseElems fuel rest).map (fun p => (.varr p.1, p.2)))
    | '\x7b' :: rest =>
      (match rest with
       | '\x7d' :: r2 => some (.vobj [], r2)
       | _ => (parseFields fuel rest).map (fun p => (.vobj p.1, p.2)))
    | _ => (parseNumber cs).map (fun p => (.vnum p.1, p.2))

/-- Parse one or more comma-separated array elements and the closing
bracket. -/
def parseElems : Nat → List Char → Option (List JsValue × List Char)
  | 0, _ => none
  | fuel + 1, cs =>
    match parseVal fuel cs with
    | none => none
    | some (v, r) =>
      match r with
      | ',' :: r2 =>
        (match parseElems fuel r2 with
         | some (vs, r3) => some (v :: vs, r3)
         | none => none)
      | ']' :: r2 => some ([v], r2)
      | _ => none

/-- Parse one or more comma-separated object members and the closing
brace. -/
def parseFields : Nat → List Char → Option (Row × List Char)
  | 0, _ => none
  | fuel + 1, cs =>
    match cs with
    | '"' :: r =>
      (match parseStringBody r [] with
       | none => none
       | some (key, r1) =>
         match r1 with
         | ':' :: r2 =>
           (match parseVal fuel r2 with
            | none => none
            | some (v, r3) =>
              match r3 with
              | ',' :: r4 =>
                (match parseFields fuel r4 with
                 | some (fs, r5) => some ((key, v) :: fs, r5)
                 | none => none)
              | '\x7d' :: r4 => some ([(key, v)], r4)
              | _ => none)
         | _ => none)
    | _ => none
end

/-- JSON.parse on a whole document as JSON.stringify emits it: the parse
must consume the entire input, and the fuel (one past the input length)
suffices for any value whose printed form fits in the input. -/
def jsonParse (s : String) : Option JsValue :=
  match parseVal (s.length + 1) s.data with
  | some (v, []) => some v
  | _ => none

mutual
/-- Nesting depth of a value, used to discharge the parser's fuel. -/
def pdepth : JsValue → Nat
  | .varr elems => 1 + pdepthList elems
  | .vobj fields => 1 + pdepthFields fields
  | _ => 0

/-- Depth bound for array elements, counting one per cons. -/
def pdepthList : List JsValue → Nat
  | [] => 0
  | x :: xs => 1 + max (pdepth x) (pdepthList xs)

/-- Depth bound for object members, counting one per cons. -/
def pdepthFields : List (String × JsValue) → Nat
  | [] => 0
  | kv :: fs => 1 + max (pdepth kv.2) (pdepthFields fs)
end

/-- The character list JSON.stringify yields for a value, with the same
default as jsonStringify for the values that do not stringify. -/
def strV (v : JsValue) : List Char := (stringifyChars v).getD "null".data

/-- The input cannot extend a decimal digit run: it is empty or headed by
a non-digit. Every JSON delimiter qualifies. -/
def notDigitStart : List Char → Bool
  | [] => true
  | c :: _ => !(isDigitChar c)

end OracleDbNode

namespace OracleDbNode

/-- C2: the Value Normalizer maps every value by the first matching rule in
source order: null/undefined to null; booleans to the integers 1/0; Date
values unchanged; Buffer values unchanged; any remaining composite value
(object or array) to its JSON text; strings and numbers unchanged; and
everything else to its string rendering. -/
theorem convertToOracleType_rules :
    convertToOracleType .vnull = .onull
    ∧ convertToOracleType .vundefined = .onull
    ∧ (∀ b : Bool, convertToOracleType (.vbool b) = .onum (if b then 1 else 0))
    ∧ (∀ iso : String, convertToOracleType (.vdate iso) = .odate iso)
    ∧ (∀ bytes : List Nat, convertToOracleType (.vbuffer bytes) = .obuffer bytes)
    ∧ (∀ fields : List (String × JsValue),
        convertToOracleType (.vobj fields) = .ostr (jsonStringify (.vobj fields)))
    ∧ (∀ elems : List JsValue,
        convertToOracleType (.varr elems) = .ostr (jsonStringify (.varr elems)))
    ∧ (∀ s : String, convertToOracleType (.vstr s) = .ostr s)
    ∧ (∀ n : Int, convertToOracleType (.vnum n) = .onum n)
    ∧ (∀ r : String, convertToOracleType (.vother r) = .ostr r) := by
  refine ⟨rfl, rfl, ?_, ?_, ?_, ?_, ?_, ?_, ?_, ?_⟩ <;> intro x <;> rfl

/-- C8: the Value Normalizer is a total function on the value domain — for
every input it terminates with some driver-compatible scalar and raises no
error. -/
theorem convertToOracleType_total (v : JsValue) :
    ∃ w : OracleVal, convertToOracleType v = w :=
  ⟨convertToOracleType v, rfl⟩

/-- The insert loop in closed form: starting at 0-based index `idx`, the
binds pair val{idx+1}, val{idx+2}, … with the normalized fields of the
listed columns, and the placeholders are the same names prefixed with a
colon. -/
theorem insertLoop_eq (row : Row) (cols : List String) (idx : Nat) :
    insertLoop row cols idx =
      (((List.range' (idx + 1) cols.length).zip cols).map
          (fun p => ("val" ++ toString p.1, convertToOracleType (getField row p.2))),
       ((List.range' (idx + 1) cols.length).zip cols).map
          (fun p => ":val" ++ toString p.1)) := by
  have hcolon : ∀ x : String, ":" ++ ("val" ++ x) = ":val" ++ x := by
    intro x
    rw [← String.append_assoc]
    congr 1
  induction cols generalizing idx with
  | nil => simp [insertLoop]
  | cons c rest ih =>
    simp only [insertLoop, ih (idx + 1), List.length_cons, List.range'_succ, List.zip_cons_cons,
      List.map_cons, hcolon]

/-- The placeholder list depends only on the positions: mapping the first
components of the index/column zip gives the :valN list over the index
range alone. -/
theorem zip_range'_placeholders (n : Nat) (l : List String) (h : l.length = n) :
    ((List.range' 1 n).zip l).map (fun p => ":val" ++ toString p.1)
      = (List.range' 1 n).map (fun i => ":val" ++ toString i) := by
  calc ((List.range' 1 n).zip l).map (fun p => ":val" ++ toString p.1)
      = (((List.range' 1 n).zip l).map Prod.fst).map (fun i => ":val" ++ toString i) := by
        rw [List.map_map]
        simp [Function.comp_def]
    _ = (List.range' 1 n).map (fun i => ":val" ++ toString i) := by
        rw [List.map_fst_zip]
        rw [List.length_range', h]

/-- C3: for every insert, the columns string splits on commas with each
entry trimmed; the i-th column's field (1-based) is read from the current
item, normalized, and bound as val{i}; exactly one bind per column is
made; and the SQL text is INSERT INTO table (columns) VALUES
(placeholders) with columns and :val1…:valN in the given column order. -/
theorem buildInsert_spec (table columns : String) (row : Row) (options : NodeOptions) :
    (buildInsert table columns row options).binds =
      ((List.range' 1 ((columns.splitOn ",").map (fun c => c.trim)).length).zip
          ((columns.splitOn ",").map (fun c => c.trim))).map
        (fun p => ("val" ++ toString p.1, convertToOracleType (getField row p.2)))
    ∧ (buildInsert table columns row options).binds.length =
        ((columns.splitOn ",").map (fun c => c.trim)).length
    ∧ (buildInsert table columns row options).sql =
        "INSERT INTO " ++ table ++ " ("
          ++ String.intercalate "," ((columns.splitOn ",").map (fun c => c.trim))
          ++ ") VALUES ("
          ++ String.intercalate ","
              ((List.range' 1 ((columns.splitOn ",").map (fun c => c.trim)).length).map
                (fun i => ":val" ++ toString i))
          ++ ")" := by
  refine ⟨?_, ?_, ?_⟩
  · simp [buildInsert, insertLoop_eq]
  · simp [buildInsert, insertLoop_eq]
  · simp only [buildInsert, insertLoop_eq, Nat.zero_add]
    rw [zip_range'_placeholders _ _ rfl]

/-- No synthetic valN bind name ever collides with a keyN bind name: they
differ in their first character. -/
theorem val_name_ne_key_name (a b : String) : "val" ++ a ≠ "key" ++ b := by
  intro h
  have hd := congrArg String.data h
  rw [String.data_append, String.data_append] at hd
  have hv : "val".data = ['v', 'a', 'l'] := rfl
  have hk : "key".data = ['k', 'e', 'y'] := rfl
  rw [hv, hk] at hd
  simp at hd

/-- The update SET-clause loop in closed form: over the fields that differ
from the update key, assignments and valN binds are numbered from the
starting paramIndex in record order, and the loop leaves paramIndex at the
start plus the number of such fields. -/
theorem updateLoop_eq (updateKey : String) (itemData : Row) (idx : Nat) :
    updateLoop updateKey itemData idx =
      (((List.range' idx (itemData.filter (fun kv => kv.1 != updateKey)).length).zip
          (itemData.filter (fun kv => kv.1 != updateKey))).map
          (fun p => p.2.1 ++ " = :val" ++ toString p.1),
       ((List.range' idx (itemData.filter (fun kv => kv.1 != updateKey)).length).zip
          (itemData.filter (fun kv => kv.1 != updateKey))).map
          (fun p => ("val" ++ toString p.1, convertToOracleType p.2.2)),
       idx + (itemData.filter (fun kv => kv.1 != updateKey)).length) := by
  induction itemData generalizing idx with
  | nil => simp [updateLoop]
  | cons kv rest ih =>
    obtain ⟨key, value⟩ := kv
    by_cases h : (key != updateKey) = true
    · simp only [updateLoop, h, if_pos, List.filter_cons, List.length_cons, List.range'_succ,
        List.zip_cons_cons, List.map_cons, ih (idx + 1), Prod.mk.injEq]
      exact ⟨trivial, trivial, by omega⟩
    · have h' : (key != updateKey) = false := by
        revert h
        cases key != updateKey <;> simp
      simp only [updateLoop, h', List.filter_cons, ih idx]
      simp [h']

/-- C4: for every update, each field of the record other than the update
key yields one assignment field = :valN in record order; the update key
never appears among the SET-clause columns; the key's value is bound under
key{N+1}, a name distinct from every valN name, and the WHERE clause is
exactly key = :key{N+1}. -/
theorem buildUpdate_spec (table updateKey : String) (itemData : Row) (options : NodeOptions) :
    (buildUpdate table updateKey itemData options).sql =
      "UPDATE " ++ table ++ " SET "
        ++ String.intercalate ", "
            (((List.range' 1 (itemData.filter (fun kv => kv.1 != updateKey)).length).zip
                (itemData.filter (fun kv => kv.1 != updateKey))).map
              (fun p => p.2.1 ++ " = :val" ++ toString p.1))
        ++ " WHERE " ++ updateKey ++ " = :key"
        ++ toString ((itemData.filter (fun kv => kv.1 != updateKey)).length + 1)
    ∧ (buildUpdate table updateKey itemData options).binds =
        (((List.range' 1 (itemData.filter (fun kv => kv.1 != updateKey)).length).zip
            (itemData.filter (fun kv => kv.1 != updateKey))).map
          (fun p => ("val" ++ toString p.1, convertToOracleType p.2.2)))
        ++ [("key" ++ toString ((itemData.filter (fun kv => kv.1 != updateKey)).length + 1),
             convertToOracleType (getField itemData updateKey))]
    ∧ updateKey ∉ (itemData.filter (fun kv => kv.1 != updateKey)).map Prod.fst
    ∧ ("key" ++ toString ((itemData.filter (fun kv => kv.1 != updateKey)).length + 1)) ∉
        (((List.range' 1 (itemData.filter (fun kv => kv.1 != updateKey)).length).zip
            (itemData.filter (fun kv => kv.1 != updateKey))).map
          (fun p => "val" ++ toString p.1)) := by
  refine ⟨?_, ?_, ?_, ?_⟩
  · simp [buildUpdate, updateLoop_eq, Nat.add_comm]
  · simp [buildUpdate, updateLoop_eq, Nat.add_comm]
  · intro hmem
    rw [List.mem_map] at hmem
    obtain ⟨kv, hkv, hk⟩ := hmem
    rw [List.mem_filter] at hkv
    exact absurd hk (by simpa using hkv.2)
  · intro hmem
    rw [List.mem_map] at hmem
    obtain ⟨p, _, hp⟩ := hmem
    exact val_name_ne_key_name _ _ hp

/-- C4 witness: the update-builder theorem at the spec's concrete example
(key employee_id, record with employee_id and salary): the key is not
among the SET columns there. -/
theorem buildUpdate_spec_witness :
    "employee_id" ∉
      (([("employee_id", JsValue.vnum 1001), ("salary", JsValue.vnum 75000)] : Row).filter
          (fun kv => kv.1 != "employee_id")).map Prod.fst :=
  (buildUpdate_spec "employees" "employee_id"
    [("employee_id", JsValue.vnum 1001), ("salary", JsValue.vnum 75000)]
    ⟨none, none, none⟩).2.2.1

/-- The executeProcedure parameter loop in closed form: one bind and one
:name placeholder per entry, in entry order. -/
theorem procLoop_eq (ps : Row) :
    procLoop ps = (ps.map (fun kv => (kv.1, convertToOracleType kv.2)),
                   ps.map (fun kv => ":" ++ kv.1)) := by
  induction ps with
  | nil => simp [procLoop]
  | cons kv rest ih => simp [procLoop, ih]

/-- C5 (amended): the generated block is exactly BEGIN procedure(…); END;
with one :name placeholder per parameter entry in iteration order and the
matching normalized bind map, and the record emitted for a successful
procedure execution carries the driver's out-binds (empty object when
absent) under a field named outBinds. -/
theorem buildProcedure_spec (procedure : String) (ps : Row) (options : NodeOptions)
    (res : DriverResult) :
    (buildProcedure procedure ps options).sql =
      "BEGIN " ++ procedure ++ "("
        ++ String.intercalate ", " (ps.map (fun kv => ":" ++ kv.1)) ++ "); END;"
    ∧ (buildProcedure procedure ps options).binds =
        ps.map (fun kv => (kv.1, convertToOracleType kv.2))
    ∧ itemOutputs .executeProcedure res =
        [.vobj [("success", .vbool true), ("outBinds", .vobj (res.outBinds.getD []))]] := by
  refine ⟨?_, ?_, rfl⟩
  · simp [buildProcedure, procLoop_eq]
  · simp [buildProcedure, procLoop_eq]

/-- C5 counterexample: a procedure execution whose driver result carries an
out-bind emits a record whose fields are success and outBinds; reading a
field named outputParameters from it yields undefined, so nothing is
surfaced under that name. -/
theorem outputParameters_field_counterexample :
    itemOutputs .executeProcedure
        { rows := none, rowsAffected := none, outBinds := some [("p1", .vnum 7)] }
      = [.vobj [("success", .vbool true), ("outBinds", .vobj [("p1", .vnum 7)])]]
    ∧ getField [("success", .vbool true), ("outBinds", .vobj [("p1", .vnum 7)])]
        "outputParameters" = .vundefined := by
  exact ⟨rfl, rfl⟩

/-- With continueOnFail set, the loop never aborts: it returns exactly the
per-item blocks in input order, a failing item contributing its single
{error} record. -/
theorem execLoop_continue (cfg : NodeConfig) (driver : Nat → DriverOutcome)
    (hc : cfg.continueOnFail = true) (i : Nat) (items : List Row) :
    (execLoop cfg driver i items).1 = .ok (itemBlocks cfg driver i items) := by
  induction items generalizing i with
  | nil => simp [execLoop, itemBlocks]
  | cons item rest ih =>
    simp only [execLoop, itemBlocks]
    cases hstep : (itemStep cfg driver i item).1 with
    | ok outs => simp [hstep, ih (i + 1), Except.map]
    | error msg => simp [hstep, hc, ih (i + 1), Except.map]

/-- With continueOnFail unset, a failing head item aborts the whole loop:
the error propagates and no record of any later item is produced, nor any
further driver call made. -/
theorem execLoop_abort (cfg : NodeConfig) (driver : Nat → DriverOutcome)
    (hc : cfg.continueOnFail = false) (i : Nat) (item : Row) (rest : List Row)
    (msg : String) (calls : List (Nat × Stmt))
    (hstep : itemStep cfg driver i item = (.error msg, calls)) :
    execLoop cfg driver i (item :: rest) = (.error msg, calls) := by
  simp [execLoop, hstep, hc]

/-- The indices of the driver calls the loop makes form a sublist of the
item index range: each item is executed at most once, in order. -/
theorem execLoop_calls_sublist (cfg : NodeConfig) (driver : Nat → DriverOutcome)
    (i : Nat) (items : List Row) :
    ((execLoop cfg driver i items).2.map Prod.fst).Sublist (List.range' i items.length) := by
  induction items generalizing i with
  | nil => simp [execLoop]
  | cons item rest ih =>
    have hhead : ∀ r calls, itemStep cfg driver i item = (r, calls) →
        (calls.map Prod.fst).Sublist [i] := by
      intro r calls hstep
      unfold itemStep at hstep
      cases hb : builtStmt cfg item with
      | none =>
        rw [hb] at hstep
        cases hstep
        simp
      | some stmt =>
        rw [hb] at hstep
        cases hd : driver i with
        | failure msg =>
          rw [hd] at hstep
          cases hstep
          simp
        | success res =>
          rw [hd] at hstep
          cases hstep
          simp
    rw [List.length_cons, List.range'_succ]
    simp only [execLoop]
    cases hstep : itemStep cfg driver i item with
    | mk r calls =>
      have hcs : (calls.map Prod.fst).Sublist [i] := hhead r calls hstep
      cases r with
      | ok outs =>
        simp only []
        rw [List.map_append]
        exact List.Sublist.append hcs (ih (i + 1))
      | error msg =>
        by_cases hc : cfg.continueOnFail
        · simp only [hc, if_pos]
          rw [List.map_append]
          exact List.Sublist.append hcs (ih (i + 1))
        · simp only [hc, if_neg, Bool.false_eq_true, not_false_iff]
          exact List.Sublist.trans hcs (by simp)

/-- C1 (amended): with continue-past-failure enabled the loop emits, in
input order, one block per item — a failing item's block being exactly the
single {error: message} record — and processing proceeds past failures (n
items yield n records whenever each successful execution emits exactly one
record); with it disabled, the first failure aborts the loop, the error
surfaces to the caller and no later item produces output; and no item is
ever executed twice (no retry). -/
theorem execLoop_failure_handling (cfg : NodeConfig) (driver : Nat → DriverOutcome)
    (i : Nat) (items : List Row) :
    (cfg.continueOnFail = true →
      (execLoop cfg driver i items).1 = .ok (itemBlocks cfg driver i items))
    ∧ (∀ item msg calls, itemStep cfg driver i item = (.error msg, calls) →
        itemBlocks cfg driver i (item :: items) =
          errorRecord msg :: itemBlocks cfg driver (i + 1) items)
    ∧ (cfg.continueOnFail = false →
        ∀ item rest msg calls, itemStep cfg driver i item = (.error msg, calls) →
          execLoop cfg driver i (item :: rest) = (.error msg, calls))
    ∧ ((execLoop cfg driver i items).2.map Prod.fst).Nodup := by
  refine ⟨fun hc => execLoop_continue cfg driver hc i items, ?_, ?_, ?_⟩
  · intro item msg calls hstep
    simp [itemBlocks, hstep]
  · intro hc item rest msg calls hstep
    exact execLoop_abort cfg driver hc i item rest msg calls hstep
  · exact (execLoop_calls_sublist cfg driver i items).nodup (List.nodup_range' ..)

/-- C1 counterexample: two input records under continue-past-failure, the
second failing — the failing record does contribute its single {error}
record, but the run emits three records, not two, because the first
record's query returned two rows; so n inputs do not, in general, yield
exactly n output entries. -/
theorem execLoop_entry_count_counterexample :
    (execLoop sampleConfig sampleDriver 0 [[], []]).1 =
      .ok [.vobj [("a", .vnum 1)], .vobj [("a", .vnum 2)], errorRecord "ORA-00001"]
    ∧ ([([] : Row), []] : List Row).length = 2 := by
  exact ⟨rfl, rfl⟩

/-- C1 witness: the amended failure-handling theorem applied to the
concrete two-item run, its continueOnFail hypothesis discharged by rfl. -/
theorem execLoop_failure_handling_witness :
    (execLoop sampleConfig sampleDriver 0 [[], []]).1 =
      .ok (itemBlocks sampleConfig sampleDriver 0 [[], []]) :=
  (execLoop_failure_handling sampleConfig sampleDriver 0 [[], []]).1 rfl

/-- Every statement a loop iteration hands to connection.execute is the
one its branch built for some item. -/
theorem builtStmt_opts (cfg : NodeConfig) (item : Row) (stmt : Stmt)
    (h : builtStmt cfg item = some stmt) :
    (cfg.operation = .executeQuery →
      stmt.opts = { autoCommit := cfg.options.autoCommit.getD true
                    fetchArraySize := some (cfg.options.fetchSize.getD 100)
                    maxRows := some (cfg.options.maxRows.getD 0)
                    outFormatObject := true })
    ∧ (cfg.operation ≠ .executeQuery → stmt.opts = autoCommitOnly cfg.options) := by
  cases hop : cfg.operation <;> rw [builtStmt, hop] at h
  case executeQuery =>
    refine ⟨fun _ => ?_, fun hne => absurd rfl hne⟩
    cases h
    simp [buildQuery]
  case insert =>
    refine ⟨fun he => Operation.noConfusion he, fun _ => ?_⟩
    cases h
    simp [buildInsert]
  case update =>
    refine ⟨fun he => Operation.noConfusion he, fun _ => ?_⟩
    cases h
    simp [buildUpdate]
  case delete =>
    refine ⟨fun he => Operation.noConfusion he, fun _ => ?_⟩
    cases h
    simp [buildDelete]
  case executeProcedure =>
    refine ⟨fun he => Operation.noConfusion he, fun _ => ?_⟩
    cases h
    simp [buildProcedure]
  case other name =>
    cases h

/-- Every driver call the loop records carries a statement built by
builtStmt for some item. -/
theorem execLoop_calls_built (cfg : NodeConfig) (driver : Nat → DriverOutcome)
    (i : Nat) (items : List Row) :
    ∀ c ∈ (execLoop cfg driver i items).2, ∃ item, builtStmt cfg item = some c.2 := by
  induction items generalizing i with
  | nil => simp [execLoop]
  | cons item rest ih =>
    have hhead : ∀ c ∈ (itemStep cfg driver i item).2, builtStmt cfg item = some c.2 := by
      intro c hc
      unfold itemStep at hc
      cases hb : builtStmt cfg item with
      | none =>
        rw [hb] at hc
        simp at hc
      | some stmt =>
        rw [hb] at hc
        cases hd : driver i with
        | failure msg =>
          rw [hd] at hc
          simp at hc
          rw [hc]
        | success res =>
          rw [hd] at hc
          simp at hc
          rw [hc]
    intro c hc
    simp only [execLoop] at hc
    cases hstep : itemStep cfg driver i item with
    | mk r calls =>
      rw [hstep] at hc
      cases r with
      | ok outs =>
        simp only [List.mem_append] at hc
        cases hc with
        | inl hl => exact ⟨item, hhead c (by rw [hstep]; exact hl)⟩
        | inr hr => exact ih (i + 1) c hr
      | error msg =>
        by_cases hcont : cfg.continueOnFail
        · simp only [hcont, if_pos, List.mem_append] at hc
          cases hc with
          | inl hl => exact ⟨item, hhead c (by rw [hstep]; exact hl)⟩
          | inr hr => exact ih (i + 1) c hr
        · simp only [hcont, if_neg, Bool.false_eq_true, not_false_iff] at hc
          exact ⟨item, hhead c (by rw [hstep]; exact hc)⟩

/-- C6 (amended): every connection.execute call the loop performs uses,
for executeQuery, all three options with their defaults (autoCommit true,
fetch batch size 100, maxRows 0) plus the object out-format; for every
other operation the call sets only autoCommit (defaulting to true), and
the fetch batch size and maxRows options are not applied. -/
theorem execOptions_per_call (cfg : NodeConfig) (driver : Nat → DriverOutcome)
    (i : Nat) (items : List Row) :
    ∀ c ∈ (execLoop cfg driver i items).2,
      (cfg.operation = .executeQuery →
        c.2.opts = { autoCommit := cfg.options.autoCommit.getD true
                     fetchArraySize := some (cfg.options.fetchSize.getD 100)
                     maxRows := some (cfg.options.maxRows.getD 0)
                     outFormatObject := true })
      ∧ (cfg.operation ≠ .executeQuery → c.2.opts = autoCommitOnly cfg.options) := by
  intro c hc
  obtain ⟨item, hitem⟩ := execLoop_calls_built cfg driver i items c hc
  exact builtStmt_opts cfg item c.2 hitem

/-- C6 counterexample: an insert with fetchSize 5 and maxRows 50 set in the
options still builds its execute call with neither fetchArraySize nor
maxRows applied — only executeQuery passes them. -/
theorem insert_options_counterexample :
    (buildInsert "employees" "employee_id" [] ⟨some true, some 5, some 50⟩).opts.fetchArraySize
      = none
    ∧ (buildInsert "employees" "employee_id" [] ⟨some true, some 5, some 50⟩).opts.maxRows
      = none := by
  exact ⟨rfl, rfl⟩

/-- C6 witness: the per-call options theorem applied to the concrete
executeQuery run at its first recorded call. -/
theorem execOptions_per_call_witness :
    (buildQuery "SELECT 1" [] ⟨none, none, none⟩).opts =
      { autoCommit := true
        fetchArraySize := some 100
        maxRows := some 0
        outFormatObject := true } := by
  have h := execOptions_per_call sampleConfig sampleDriver 0 [[], []]
  have hc : ((0 : Nat), buildQuery "SELECT 1" [] ⟨none, none, none⟩) ∈
      (execLoop sampleConfig sampleDriver 0 [[], []]).2 := by
    rw [show (execLoop sampleConfig sampleDriver 0 [[], []]).2 =
      [((0 : Nat), buildQuery "SELECT 1" [] ⟨none, none, none⟩),
       ((1 : Nat), buildQuery "SELECT 1" [] ⟨none, none, none⟩)] from rfl]
    exact List.mem_cons_self ..
  exact (h _ hc).1 rfl

/-- C7 counterexample: when getConnection itself throws, the variable the
finally block checks is still undefined, so connection.close is invoked
zero times on that exit path, not exactly once. -/
theorem close_skipped_on_connect_failure :
    (execute sampleConfig
        { connectFailure := some "ORA-12154", driver := sampleDriver, closeFailure := false }
        []).closeCalls = 0 := rfl

/-- C7 (amended): whenever the connection was acquired, every exit path —
normal return, abort on a failing record, or per-record errors under
continue — invokes connection.close exactly once, and a throw from close
is swallowed: it never changes the invocation's result. -/
theorem connection_close_once (cfg : NodeConfig) (w : World) (items : List Row)
    (h : w.connectFailure = none) :
    (execute cfg w items).closeCalls = 1
    ∧ (execute cfg { w with closeFailure := true } items).result =
        (execute cfg { w with closeFailure := false } items).result := by
  constructor
  · cases hcf : w.closeFailure <;> simp [execute, h, hcf]
  · simp [execute, h]

/-- C7 witness: the close-once theorem at a concrete successful
connection, its hypothesis discharged by rfl. -/
theorem connection_close_once_witness :
    (execute sampleConfig
        { connectFailure := none, driver := sampleDriver, closeFailure := false }
        [[], []]).closeCalls = 1 :=
  (connection_close_once sampleConfig
    { connectFailure := none, driver := sampleDriver, closeFailure := false } [[], []] rfl).1

/-- With an operation selector matching no branch, every iteration builds
nothing, calls nothing and pushes nothing. -/
theorem execLoop_other (cfg : NodeConfig) (driver : Nat → DriverOutcome) (name : String)
    (hop : cfg.operation = .other name) (i : Nat) (items : List Row) :
    execLoop cfg driver i items = (.ok [], []) := by
  induction items generalizing i with
  | nil => rfl
  | cons item rest ih =>
    have hstep : itemStep cfg driver i item = (.ok [], []) := by
      simp [itemStep, builtStmt, hop]
    simp [execLoop, hstep, ih (i + 1), Except.map]

/-- C10: when the operation selector matches none of the five handled
operations, the invocation completes without error and returns an empty
output list, no matter how many input records there are (and no driver
call is ever made). -/
theorem unknown_operation_empty (cfg : NodeConfig) (w : World) (items : List Row)
    (name : String) (hop : cfg.operation = .other name) (hconn : w.connectFailure = none) :
    (execute cfg w items).result = .ok []
    ∧ (execLoop cfg w.driver 0 items).2 = [] := by
  have hloop := execLoop_other cfg w.driver name hop 0 items
  constructor
  · cases hcf : w.closeFailure <;> simp [execute, hconn, hloop, hcf]
  · rw [hloop]

/-- C10 witness: a concrete invocation with an unhandled operation over
two items returns ok with no records. -/
theorem unknown_operation_empty_witness :
    (execute { sampleConfig with operation := .other "merge" }
        { connectFailure := none, driver := sampleDriver, closeFailure := false }
        [[], []]).result = .ok [] :=
  (unknown_operation_empty { sampleConfig with operation := .other "merge" }
    { connectFailure := none, driver := sampleDriver, closeFailure := false }
    [[], []] "merge" rfl rfl).1

/-- The digit printer is fuel-irrelevant once the fuel exceeds the
number. -/
theorem natCharsAux_fuel :
    ∀ n f g, n < f → n < g → natCharsAux f n = natCharsAux g n := by
  intro n
  induction n using Nat.strong_induction_on with
  | _ n ih =>
    intro f g hf hg
    cases f with
    | zero => omega
    | succ f' =>
      cases g with
      | zero => omega
      | succ g' =>
        simp only [natCharsAux]
        by_cases h : n < 10
        · simp [h]
        · simp only [if_neg h]
          rw [ih (n / 10) (by omega) f' g' (by omega) (by omega)]

/-- A one-digit number prints as its digit character. -/
theorem natChars_lt (n : Nat) (h : n < 10) : natChars n = [Nat.digitChar n] := by
  simp [natChars, natCharsAux, h]

/-- A larger number prints as its leading digits followed by its last
digit. -/
theorem natChars_ge (n : Nat) (h : 10 ≤ n) :
    natChars n = natChars (n / 10) ++ [Nat.digitChar (n % 10)] := by
  have h1 : natChars n = natCharsAux n (n / 10) ++ [Nat.digitChar (n % 10)] := by
    rw [natChars]
    rw [show natCharsAux (n + 1) n =
      if n < 10 then [Nat.digitChar n]
      else natCharsAux n (n / 10) ++ [Nat.digitChar (n % 10)] from rfl]
    rw [if_neg (by omega)]
  rw [h1, natChars]
  rw [natCharsAux_fuel (n / 10) n (n / 10 + 1) (by omega) (by omega)]

/-- Digit characters of digits are digits. -/
theorem digitChar_isDigit (d : Nat) (h : d < 10) : isDigitChar (Nat.digitChar d) = true := by
  interval_cases d <;> decide

/-- The digit character of a digit carries exactly that digit. -/
theorem digitChar_val (d : Nat) (h : d < 10) : (Nat.digitChar d).toNat - 48 = d := by
  interval_cases d <;> decide

/-- A printed number is never empty. -/
theorem natChars_ne_nil (n : Nat) : natChars n ≠ [] := by
  by_cases h : n < 10
  · rw [natChars_lt n h]
    simp
  · rw [natChars_ge n (by omega)]
    simp

/-- Every character of a printed number is a digit. -/
theorem natChars_digits (n : Nat) : ∀ c ∈ natChars n, isDigitChar c = true := by
  induction n using Nat.strong_induction_on with
  | _ n ih =>
    intro c hc
    by_cases h : n < 10
    · rw [natChars_lt n h] at hc
      rw [List.mem_singleton] at hc
      subst hc
      exact digitChar_isDigit n h
    · rw [natChars_ge n (by omega), List.mem_append] at hc
      cases hc with
      | inl hl => exact ih (n / 10) (by omega) c hl
      | inr hr =>
        rw [List.mem_singleton] at hr
        subst hr
        exact digitChar_isDigit _ (Nat.mod_lt _ (by omega))

/-- A printed number starts with a digit. -/
theorem natChars_head (n : Nat) : ∃ c t, natChars n = c :: t ∧ isDigitChar c = true := by
  cases hh : natChars n with
  | nil => exact absurd hh (natChars_ne_nil n)
  | cons c t =>
    exact ⟨c, t, rfl, natChars_digits n c (hh ▸ List.mem_cons_self ..)⟩

/-- The digit fold splits over append. -/
theorem digitsToNat_append (l1 : List Char) :
    ∀ (acc : Nat) (l2 : List Char),
      digitsToNat acc (l1 ++ l2) = digitsToNat (digitsToNat acc l1) l2 := by
  induction l1 with
  | nil => intro acc l2; rfl
  | cons c t ih =>
    intro acc l2
    rw [List.cons_append]
    rw [show digitsToNat acc (c :: (t ++ l2)) =
      digitsToNat (acc * 10 + (c.toNat - 48)) (t ++ l2) from rfl]
    rw [ih]
    rfl

/-- Folding the printed digits of a number recovers the number. -/
theorem digitsToNat_natChars (n : Nat) : digitsToNat 0 (natChars n) = n := by
  induction n using Nat.strong_induction_on with
  | _ n ih =>
    by_cases h : n < 10
    · rw [natChars_lt n h]
      show 0 * 10 + ((Nat.digitChar n).toNat - 48) = n
      rw [digitChar_val n h]
      omega
    · rw [natChars_ge n (by omega), digitsToNat_append, ih (n / 10) (by omega)]
      show n / 10 * 10 + ((Nat.digitChar (n % 10)).toNat - 48) = n
      rw [digitChar_val (n % 10) (Nat.mod_lt _ (by omega))]
      omega

/-- Digit-run extraction stops immediately on a non-digit start. -/
theorem takeDigits_stop (cs : List Char) (h : notDigitStart cs = true) :
    takeDigits cs = ([], cs) := by
  cases cs with
  | nil => rfl
  | cons c t =>
    rw [notDigitStart, Bool.not_eq_eq_eq_not, Bool.not_true] at h
    simp [takeDigits, h]

/-- Digit-run extraction consumes exactly a leading digit run. -/
theorem takeDigits_run (ds : List Char) (h : ∀ c ∈ ds, isDigitChar c = true)
    (rest : List Char) (hrest : notDigitStart rest = true) :
    takeDigits (ds ++ rest) = (ds, rest) := by
  induction ds with
  | nil => simpa using takeDigits_stop rest hrest
  | cons c t ih =>
    have hc := h c (List.mem_cons_self ..)
    have ht := ih (fun x hx => h x (List.mem_cons_of_mem _ hx))
    simp [takeDigits, hc, ht]

/-- The number codec round-trip: parsing a printed integer recovers it
whenever the remainder cannot extend the digit run. -/
theorem parseNumber_intChars (n : Int) (rest : List Char)
    (hrest : notDigitStart rest = true) :
    parseNumber (intChars n ++ rest) = some (n, rest) := by
  by_cases hneg : n < 0
  · rw [intChars, if_pos hneg]
    simp only [List.cons_append, parseNumber]
    rw [takeDigits_run _ (natChars_digits _) rest hrest]
    simp only [List.isEmpty_iff]
    rw [if_neg (natChars_ne_nil n.natAbs)]
    rw [digitsToNat_natChars]
    have : -(n.natAbs : Int) = n := by omega
    rw [this]
  · obtain ⟨c, t, hct, hc⟩ := natChars_head n.natAbs
    have hcm : c ≠ '-' := by
      intro he
      subst he
      exact absurd hc (by decide)
    rw [intChars, if_neg hneg, hct]
    have htake : takeDigits (c :: (t ++ rest)) = (c :: t, rest) := by
      rw [← List.cons_append, ← hct]
      exact takeDigits_run _ (natChars_digits _) rest hrest
    have hval : digitsToNat 0 (c :: t) = n.natAbs := by
      rw [← hct]
      exact digitsToNat_natChars n.natAbs
    have habs : (n.natAbs : Int) = n := by omega
    rw [List.cons_append, parseNumber.eq_def]
    split
    · rename_i rest' heq
      rw [List.cons.injEq] at heq
      exact absurd heq.1 hcm
    · rw [htake]
      simp only [List.isEmpty_cons, Bool.false_eq_true, if_false]
      rw [hval, habs]

/-- The hexadecimal digit of a value below 16 reads back as that value. -/
theorem hexVal_hexDigitChar (d : Nat) (h : d < 16) : hexVal (hexDigitChar d) = some d := by
  interval_cases d <;> decide

/-- An unescaped ordinary character is consumed verbatim. -/
theorem parseStringBody_plain (c : Char) (tail acc : List Char)
    (h1 : c ≠ '"') (h2 : c ≠ '\\') :
    parseStringBody (c :: tail) acc = parseStringBody tail (c :: acc) := by
  rw [parseStringBody.eq_def]
  split
  · rename_i heq
    rw [List.cons.injEq] at heq
    exact absurd heq.1 h1
  · rename_i a b cc d rest heq
    rw [List.cons.injEq] at heq
    exact absurd heq.1 h2
  · rename_i e rest heq
    rw [List.cons.injEq] at heq
    exact absurd heq.1 h2
  · rename_i heq
    rw [List.cons.injEq] at heq
    exact absurd heq.1 h2
  · rename_i c' rest h3 h4 h5 h6 heq
    rw [List.cons.injEq] at heq
    rw [← heq.1, ← heq.2]
  · rename_i heq
    exact absurd heq (by simp)

/-- Parsing one escaped character undoes the escaping, for every
character. -/
theorem parseStringBody_escapeChar (c : Char) (tail acc : List Char) :
    parseStringBody (escapeChar c ++ tail) acc = parseStringBody tail (c :: acc) := by
  by_cases h1 : c = '"'
  · subst h1; rfl
  by_cases h2 : c = '\\'
  · subst h2; rfl
  by_cases h3 : c = '\x08'
  · subst h3; rfl
  by_cases h4 : c = '\t'
  · subst h4; rfl
  by_cases h5 : c = '\n'
  · subst h5; rfl
  by_cases h6 : c = '\x0c'
  · subst h6; rfl
  by_cases h7 : c = '\r'
  · subst h7; rfl
  by_cases h8 : c.toNat < 32
  · have hesc : escapeChar c = '\\' :: 'u' :: '0' :: '0'
        :: hexDigitChar (c.toNat / 16) :: hexDigitChar (c.toNat % 16) :: [] := by
      rw [escapeChar, if_neg h1, if_neg h2, if_neg h3, if_neg h4, if_neg h5, if_neg h6,
        if_neg h7, if_pos h8]
    rw [hesc]
    simp only [List.cons_append, List.nil_append]
    rw [show parseStringBody ('\\' :: 'u' :: '0' :: '0'
          :: hexDigitChar (c.toNat / 16) :: hexDigitChar (c.toNat % 16) :: tail) acc
        = (match hexVal '0', hexVal '0', hexVal (hexDigitChar (c.toNat / 16)),
              hexVal (hexDigitChar (c.toNat % 16)) with
           | some va, some vb, some vc, some vd =>
             parseStringBody tail (Char.ofNat (((va * 16 + vb) * 16 + vc) * 16 + vd) :: acc)
           | _, _, _, _ => none) from rfl]
    rw [show hexVal '0' = some 0 from rfl]
    rw [hexVal_hexDigitChar _ (by omega), hexVal_hexDigitChar _ (by omega)]
    show parseStringBody tail
        (Char.ofNat (((0 * 16 + 0) * 16 + c.toNat / 16) * 16 + c.toNat % 16) :: acc)
      = parseStringBody tail (c :: acc)
    rw [show ((0 * 16 + 0) * 16 + c.toNat / 16) * 16 + c.toNat % 16 = c.toNat by omega]
    rw [Char.ofNat_toNat]
  · have hesc : escapeChar c = [c] := by
      rw [escapeChar, if_neg h1, if_neg h2, if_neg h3, if_neg h4, if_neg h5, if_neg h6,
        if_neg h7, if_neg h8]
    rw [hesc]
    rw [show ([c] ++ tail) = c :: tail from rfl]
    exact parseStringBody_plain c tail acc h1 h2

/-- Parsing an escaped character run stops exactly at the closing quote,
returning the run and the remainder. -/
theorem parseStringBody_escapeChars (l : List Char) :
    ∀ (acc rest : List Char),
      parseStringBody (escapeChars l ++ '"' :: rest) acc
        = some (String.mk (acc.reverse ++ l), rest) := by
  induction l with
  | nil =>
    intro acc rest
    show parseStringBody ('"' :: rest) acc = _
    rw [show parseStringBody ('"' :: rest) acc = some (String.mk acc.reverse, rest) from rfl]
    simp
  | cons c t ih =>
    intro acc rest
    rw [escapeChars, List.append_assoc, parseStringBody_escapeChar, ih]
    simp

/-- The string codec round-trip: a quoted, escaped string body parses back
to the original string. -/
theorem parseStringBody_quote (s : String) (rest : List Char) :
    parseStringBody (escapeChars s.data ++ '"' :: rest) [] = some (s, rest) := by
  rw [parseStringBody_escapeChars]
  rfl

/-- A JSON-representable value always stringifies (is never dropped). -/
theorem stringifyChars_safe (v : JsValue) (h : jsonSafe v = true) :
    stringifyChars v = some (strV v) := by
  cases v with
  | vnull => rfl
  | vbool b => cases b <;> rfl
  | vnum n => rfl
  | vstr s => rfl
  | varr elems => rfl
  | vobj fields => rfl
  | vundefined => exact absurd h Bool.false_ne_true
  | vdate iso => exact absurd h Bool.false_ne_true
  | vbuffer bytes => exact absurd h Bool.false_ne_true
  | vother r => exact absurd h Bool.false_ne_true

/-- Array elements stringify to the per-element character lists. -/
theorem stringifyElems_eq (es : List JsValue) : stringifyElems es = es.map strV := by
  induction es with
  | nil => rfl
  | cons x xs ih => simp [stringifyElems, strV, ih]

/-- With every member value representable, object members stringify to
quoted key, colon, value — nothing is dropped. -/
theorem stringifyFields_safe (fs : List (String × JsValue)) (h : jsonSafeFields fs = true) :
    stringifyFields fs = fs.map (fun kv => quoteStr kv.1 ++ ':' :: strV kv.2) := by
  induction fs with
  | nil => rfl
  | cons kv rest ih =>
    obtain ⟨k, v⟩ := kv
    rw [jsonSafeFields, Bool.and_eq_true] at h
    rw [stringifyFields, stringifyChars_safe v h.1, ih h.2, List.map_cons]

/-- Comma-joining a nonempty tail inserts the comma after the head. -/
theorem joinComma_cons (l : List Char) (ls : List (List Char)) (h : ls ≠ []) :
    joinComma (l :: ls) = l ++ ',' :: joinComma ls := by
  cases ls with
  | nil => exact absurd rfl h
  | cons y ys => rfl

/-- A representable value's printed form is nonempty and starts with a
character that closes no array and no object. -/
theorem strV_head_safe (v : JsValue) (h : jsonSafe v = true) :
    ∃ c t, strV v = c :: t ∧ c ≠ ']' ∧ c ≠ '\x7d' := by
  cases v with
  | vnull => exact ⟨'n', _, rfl, by decide, by decide⟩
  | vbool b =>
    cases b
    · exact ⟨'f', _, rfl, by decide, by decide⟩
    · exact ⟨'t', _, rfl, by decide, by decide⟩
  | vnum n =>
    by_cases hneg : n < 0
    · refine ⟨'-', natChars n.natAbs, ?_, by decide, by decide⟩
      rw [show strV (.vnum n) = intChars n from rfl, intChars, if_pos hneg]
    · obtain ⟨c, t, hct, hc⟩ := natChars_head n.natAbs
      refine ⟨c, t, ?_, ?_, ?_⟩
      · rw [show strV (.vnum n) = intChars n from rfl, intChars, if_neg hneg, hct]
      · intro he; subst he; exact absurd hc (by decide)
      · intro he; subst he; exact absurd hc (by decide)
  | vstr s => exact ⟨'"', _, rfl, by decide, by decide⟩
  | varr elems => exact ⟨'[', _, rfl, by decide, by decide⟩
  | vobj fields => exact ⟨'\x7b', _, rfl, by decide, by decide⟩
  | vundefined => exact absurd h Bool.false_ne_true
  | vdate iso => exact absurd h Bool.false_ne_true
  | vbuffer bytes => exact absurd h Bool.false_ne_true
  | vother r => exact absurd h Bool.false_ne_true

mutual
/-- A representable value's nesting depth is at most its printed length,
so input-length fuel suffices for the parser. -/
theorem pdepth_le (v : JsValue) (h : jsonSafe v = true) : pdepth v ≤ (strV v).length := by
  cases v with
  | vnull => exact Nat.zero_le _
  | vbool b => exact Nat.zero_le _
  | vnum n => exact Nat.zero_le _
  | vstr s => exact Nat.zero_le _
  | varr elems =>
    have hL : jsonSafeList elems = true := h
    have hb := pdepthList_le elems hL
    rw [show strV (.varr elems) = '[' :: (joinComma (stringifyElems elems) ++ [']']) from rfl]
    rw [stringifyElems_eq]
    rw [show pdepth (.varr elems) = 1 + pdepthList elems from rfl]
    simp only [List.length_cons, List.length_append, List.length_singleton]
    omega
  | vobj fields =>
    have h' : (decide ((fields.map Prod.fst).Nodup) && jsonSafeFields fields) = true := h
    rw [Bool.and_eq_true] at h'
    have hb := pdepthFields_le fields h'.2
    rw [show strV (.vobj fields)
        = '\x7b' :: (joinComma (stringifyFields fields) ++ ['\x7d']) from rfl]
    rw [stringifyFields_safe fields h'.2]
    rw [show pdepth (.vobj fields) = 1 + pdepthFields fields from rfl]
    simp only [List.length_cons, List.length_append, List.length_singleton]
    omega
  | vundefined => exact absurd h Bool.false_ne_true
  | vdate iso => exact absurd h Bool.false_ne_true
  | vbuffer bytes => exact absurd h Bool.false_ne_true
  | vother r => exact absurd h Bool.false_ne_true

/-- Depth bound for element lists against the comma-joined print. -/
theorem pdepthList_le (es : List JsValue) (h : jsonSafeList es = true) :
    pdepthList es ≤ (joinComma (es.map strV)).length + 1 := by
  cases es with
  | nil => exact Nat.zero_le _
  | cons x xs =>
    have h' : (jsonSafe x && jsonSafeList xs) = true := h
    rw [Bool.and_eq_true] at h'
    have hx := pdepth_le x h'.1
    rw [show pdepthList (x :: xs) = 1 + max (pdepth x) (pdepthList xs) from rfl]
    cases xs with
    | nil =>
      rw [show joinComma ([x].map strV) = strV x from rfl]
      rw [show pdepthList ([] : List JsValue) = 0 from rfl]
      omega
    | cons y ys =>
      have hxs := pdepthList_le (y :: ys) h'.2
      rw [List.map_cons, joinComma_cons _ _ (by simp)]
      simp only [List.length_append, List.length_cons]
      omega

/-- Depth bound for member lists against the comma-joined print. -/
theorem pdepthFields_le (fs : List (String × JsValue)) (h : jsonSafeFields fs = true) :
    pdepthFields fs
      ≤ (joinComma (fs.map (fun kv => quoteStr kv.1 ++ ':' :: strV kv.2))).length + 1 := by
  cases fs with
  | nil => exact Nat.zero_le _
  | cons kv rest =>
    have h' : (jsonSafe kv.2 && jsonSafeFields rest) = true := h
    rw [Bool.and_eq_true] at h'
    have hv := pdepth_le kv.2 h'.1
    rw [show pdepthFields (kv :: rest) = 1 + max (pdepth kv.2) (pdepthFields rest) from rfl]
    cases rest with
    | nil =>
      rw [show joinComma ([kv].map (fun kv => quoteStr kv.1 ++ ':' :: strV kv.2))
          = quoteStr kv.1 ++ ':' :: strV kv.2 from rfl]
      rw [show pdepthFields ([] : List (String × JsValue)) = 0 from rfl]
      simp only [List.length_append, List.length_cons]
      omega
    | cons kw rest' =>
      have hxs := pdepthFields_le (kw :: rest') h'.2
      rw [List.map_cons, joinComma_cons _ _ (by simp)]
      simp only [List.length_append, List.length_cons]
      omega
end

mutual
/-- The value codec round-trip: with enough fuel, parsing a printed
representable value consumes exactly its characters and rebuilds the
value, whenever the remainder cannot extend a digit run. -/
theorem parseVal_strV (fuel : Nat) (v : JsValue) (rest : List Char)
    (hsafe : jsonSafe v = true) (hfuel : pdepth v < fuel)
    (hrest : notDigitStart rest = true) :
    parseVal fuel (strV v ++ rest) = some (v, rest) := by
  cases fuel with
  | zero => omega
  | succ f =>
    cases v with
    | vnull => rfl
    | vbool b => cases b <;> rfl
    | vstr s =>
      rw [show strV (.vstr s) = '"' :: (escapeChars s.data ++ ['"']) from rfl]
      rw [show ('"' :: (escapeChars s.data ++ ['"'])) ++ rest
          = '"' :: (escapeChars s.data ++ '"' :: rest) by simp]
      show (parseStringBody (escapeChars s.data ++ '"' :: rest) []).map
          (fun p => (JsValue.vstr p.1, p.2)) = some (.vstr s, rest)
      rw [parseStringBody_quote]
      rfl
    | vnum n =>
      obtain ⟨c, t, hct, hc⟩ :
          ∃ c t, intChars n = c :: t ∧ (c = '-' ∨ isDigitChar c = true) := by
        by_cases hneg : n < 0
        · exact ⟨'-', natChars n.natAbs, by rw [intChars, if_pos hneg], Or.inl rfl⟩
        · obtain ⟨c, t, hct, hc⟩ := natChars_head n.natAbs
          exact ⟨c, t, by rw [intChars, if_neg hneg, hct], Or.inr hc⟩
      have hmk : c ≠ 'n' ∧ c ≠ 't' ∧ c ≠ 'f' ∧ c ≠ '"' ∧ c ≠ '[' ∧ c ≠ '\x7b' := by
        rcases hc with hc | hc
        · subst hc
          exact ⟨by decide, by decide, by decide, by decide, by decide, by decide⟩
        · refine ⟨?_, ?_, ?_, ?_, ?_, ?_⟩ <;>
            (intro he; subst he; exact absurd hc (by decide))
      have hnum := parseNumber_intChars n rest hrest
      rw [show strV (.vnum n) = intChars n from rfl, hct, List.cons_append]
      rw [hct, List.cons_append] at hnum
      show (match c :: (t ++ rest) with
            | 'n' :: 'u' :: 'l' :: 'l' :: rest => some (JsValue.vnull, rest)
            | 't' :: 'r' :: 'u' :: 'e' :: rest => some (JsValue.vbool true, rest)
            | 'f' :: 'a' :: 'l' :: 's' :: 'e' :: rest => some (JsValue.vbool false, rest)
            | '"' :: rest => (parseStringBody rest []).map (fun p => (JsValue.vstr p.1, p.2))
            | '[' :: rest =>
              (match rest with
               | ']' :: r2 => some (JsValue.varr [], r2)
               | _ => (parseElems f rest).map (fun p => (JsValue.varr p.1, p.2)))
            | '\x7b' :: rest =>
              (match rest with
               | '\x7d' :: r2 => some (JsValue.vobj [], r2)
               | _ => (parseFields f rest).map (fun p => (JsValue.vobj p.1, p.2)))
            | _ => (parseNumber (c :: (t ++ rest))).map (fun p => (JsValue.vnum p.1, p.2)))
          = some (JsValue.vnum n, rest)
      split
      · rename_i heq
        rw [List.cons.injEq] at heq
        exact absurd heq.1 hmk.1
      · rename_i heq
        rw [List.cons.injEq] at heq
        exact absurd heq.1 hmk.2.1
      · rename_i heq
        rw [List.cons.injEq] at heq
        exact absurd heq.1 hmk.2.2.1
      · rename_i heq
        rw [List.cons.injEq] at heq
        exact absurd heq.1 hmk.2.2.2.1
      · rename_i heq
        rw [List.cons.injEq] at heq
        exact absurd heq.1 hmk.2.2.2.2.1
      · rename_i heq
        rw [List.cons.injEq] at heq
        exact absurd heq.1 hmk.2.2.2.2.2
      · rw [hnum]
        rfl
    | varr elems =>
      have hL : jsonSafeList elems = true := hsafe
      cases elems with
      | nil => rfl
      | cons x xs =>
        have h' : (jsonSafe x && jsonSafeList xs) = true := hL
        rw [Bool.and_eq_true] at h'
        have hfuel' : pdepthList (x :: xs) < f := by
          rw [show pdepth (.varr (x :: xs)) = 1 + pdepthList (x :: xs) from rfl] at hfuel
          omega
        have hstr : strV (.varr (x :: xs))
            = '[' :: (joinComma ((x :: xs).map strV) ++ [']']) := by
          rw [show strV (.varr (x :: xs))
              = '[' :: (joinComma (stringifyElems (x :: xs)) ++ [']']) from rfl]
          rw [stringifyElems_eq]
        rw [hstr]
        rw [show ('[' :: (joinComma ((x :: xs).map strV) ++ [']'])) ++ rest
            = '[' :: (joinComma ((x :: xs).map strV) ++ ']' :: rest) by simp]
        obtain ⟨c, t, hct, hc1, hc2⟩ := strV_head_safe x h'.1
        obtain ⟨t', hT⟩ :
            ∃ t', joinComma ((x :: xs).map strV) ++ ']' :: rest = c :: t' := by
          cases xs with
          | nil =>
            refine ⟨t ++ ']' :: rest, ?_⟩
            rw [show joinComma ([x].map strV) = strV x from rfl, hct, List.cons_append]
          | cons y ys =>
            refine ⟨(t ++ ',' :: joinComma ((y :: ys).map strV)) ++ ']' :: rest, ?_⟩
            rw [List.map_cons, joinComma_cons _ _ (by simp), hct]
            simp
        show (match joinComma ((x :: xs).map strV) ++ ']' :: rest with
              | ']' :: r2 => some (JsValue.varr [], r2)
              | _ => (parseElems f (joinComma ((x :: xs).map strV) ++ ']' :: rest)).map
                  (fun p => (JsValue.varr p.1, p.2)))
            = some (.varr (x :: xs), rest)
        rw [hT]
        split
        · rename_i heq
          rw [List.cons.injEq] at heq
          exact absurd heq.1 hc1
        · rw [← hT]
          rw [parseElems_strV f (x :: xs) rest (by simp) hL hfuel']
          rfl
    | vobj fields =>
      have h0 : (decide ((fields.map Prod.fst).Nodup) && jsonSafeFields fields) = true := hsafe
      rw [Bool.and_eq_true] at h0
      have hF : jsonSafeFields fields = true := h0.2
      cases fields with
      | nil => rfl
      | cons kv rest' =>
        have h' : (jsonSafe kv.2 && jsonSafeFields rest') = true := hF
        rw [Bool.and_eq_true] at h'
        have hfuel' : pdepthFields (kv :: rest') < f := by
          rw [show pdepth (.vobj (kv :: rest')) = 1 + pdepthFields (kv :: rest') from rfl]
            at hfuel
          omega
        have hstr : strV (.vobj (kv :: rest'))
            = '\x7b' :: (joinComma ((kv :: rest').map
                (fun kv => quoteStr kv.1 ++ ':' :: strV kv.2)) ++ ['\x7d']) := by
          rw [show strV (.vobj (kv :: rest'))
              = '\x7b' :: (joinComma (stringifyFields (kv :: rest')) ++ ['\x7d']) from rfl]
          rw [stringifyFields_safe _ hF]
        rw [hstr]
        rw [show ('\x7b' :: (joinComma ((kv :: rest').map
                (fun kv => quoteStr kv.1 ++ ':' :: strV kv.2)) ++ ['\x7d'])) ++ rest
            = '\x7b' :: (joinComma ((kv :: rest').map
                (fun kv => quoteStr kv.1 ++ ':' :: strV kv.2)) ++ '\x7d' :: rest) by simp]
        obtain ⟨t', hT⟩ :
            ∃ t', joinComma ((kv :: rest').map (fun kv => quoteStr kv.1 ++ ':' :: strV kv.2))
                ++ '\x7d' :: rest = '"' :: t' := by
          cases rest' with
          | nil =>
            refine ⟨(escapeChars kv.1.data ++ ['"']) ++ ':' :: strV kv.2 ++ '\x7d' :: rest, ?_⟩
            rw [show joinComma ([kv].map (fun kv => quoteStr kv.1 ++ ':' :: strV kv.2))
                = quoteStr kv.1 ++ ':' :: strV kv.2 from rfl]
            rw [quoteStr]
            simp
          | cons kw rest'' =>
            refine ⟨(escapeChars kv.1.data ++ ['"']) ++ ':' :: strV kv.2
              ++ ',' :: joinComma ((kw :: rest'').map
                  (fun kv => quoteStr kv.1 ++ ':' :: strV kv.2)) ++ '\x7d' :: rest, ?_⟩
            rw [List.map_cons, joinComma_cons _ _ (by simp)]
            rw [quoteStr]
            simp
        show (match joinComma ((kv :: rest').map (fun kv => quoteStr kv.1 ++ ':' :: strV kv.2))
                ++ '\x7d' :: rest with
              | '\x7d' :: r2 => some (JsValue.vobj [], r2)
              | _ => (parseFields f
                  (joinComma ((kv :: rest').map (fun kv => quoteStr kv.1 ++ ':' :: strV kv.2))
                    ++ '\x7d' :: rest)).map (fun p => (JsValue.vobj p.1, p.2)))
            = some (.vobj (kv :: rest'), rest)
        rw [hT]
        split
        · rename_i heq
          rw [List.cons.injEq] at heq
          exact absurd heq.1.symm (by decide)
        · rw [← hT]
          rw [parseFields_strV f (kv :: rest') rest (by simp) hF hfuel']
          rfl
    | vundefined => exact absurd hsafe Bool.false_ne_true
    | vdate iso => exact absurd hsafe Bool.false_ne_true
    | vbuffer bytes => exact absurd hsafe Bool.false_ne_true
    | vother r => exact absurd hsafe Bool.false_ne_true

/-- The element-list codec round-trip for nonempty arrays. -/
theorem parseElems_strV (fuel : Nat) (es : List JsValue) (rest : List Char)
    (hne : es ≠ []) (hsafe : jsonSafeList es = true) (hfuel : pdepthList es < fuel) :
    parseElems fuel (joinComma (es.map strV) ++ ']' :: rest) = some (es, rest) := by
  cases fuel with
  | zero => omega
  | succ f =>
    cases es with
    | nil => exact absurd rfl hne
    | cons x xs =>
      have h' : (jsonSafe x && jsonSafeList xs) = true := hsafe
      rw [Bool.and_eq_true] at h'
      have hdx : pdepth x < f := by
        rw [show pdepthList (x :: xs) = 1 + max (pdepth x) (pdepthList xs) from rfl] at hfuel
        omega
      cases xs with
      | nil =>
        rw [show joinComma ([x].map strV) = strV x from rfl]
        have hv := parseVal_strV f x (']' :: rest) h'.1 hdx rfl
        show (match parseVal f (strV x ++ ']' :: rest) with
              | none => none
              | some (v, r) =>
                match r with
                | ',' :: r2 =>
                  (match parseElems f r2 with
                   | some (vs, r3) => some (v :: vs, r3)
                   | none => none)
                | ']' :: r2 => some ([v], r2)
                | _ => none)
            = some ([x], rest)
        rw [hv]
        rfl
      | cons y ys =>
        have hds : pdepthList (y :: ys) < f := by
          rw [show pdepthList (x :: y :: ys)
              = 1 + max (pdepth x) (pdepthList (y :: ys)) from rfl] at hfuel
          omega
        rw [List.map_cons, joinComma_cons _ _ (by simp)]
        rw [show (strV x ++ ',' :: joinComma ((y :: ys).map strV)) ++ ']' :: rest
            = strV x ++ ',' :: (joinComma ((y :: ys).map strV) ++ ']' :: rest) by simp]
        have hv := parseVal_strV f x
          (',' :: (joinComma ((y :: ys).map strV) ++ ']' :: rest)) h'.1 hdx rfl
        have hrec := parseElems_strV f (y :: ys) rest (by simp) h'.2 hds
        show (match parseVal f
                (strV x ++ ',' :: (joinComma ((y :: ys).map strV) ++ ']' :: rest)) with
              | none => none
              | some (v, r) =>
                match r with
                | ',' :: r2 =>
                  (match parseElems f r2 with
                   | some (vs, r3) => some (v :: vs, r3)
                   | none => none)
                | ']' :: r2 => some ([v], r2)
                | _ => none)
            = some (x :: y :: ys, rest)
        rw [hv]
        show (match parseElems f (joinComma ((y :: ys).map strV) ++ ']' :: rest) with
              | some (vs, r3) => some (x :: vs, r3)
              | none => none)
            = some (x :: y :: ys, rest)
        rw [hrec]

/-- The member-list codec round-trip for nonempty objects. -/
theorem parseFields_strV (fuel : Nat) (fs : List (String × JsValue)) (rest : List Char)
    (hne : fs ≠ []) (hsafe : jsonSafeFields fs = true) (hfuel : pdepthFields fs < fuel) :
    parseFields fuel
        (joinComma (fs.map (fun kv => quoteStr kv.1 ++ ':' :: strV kv.2)) ++ '\x7d' :: rest)
      = some (fs, rest) := by
  cases fuel with
  | zero => omega
  | succ f =>
    cases fs with
    | nil => exact absurd rfl hne
    | cons kv rest' =>
      obtain ⟨k, v⟩ := kv
      have h' : (jsonSafe v && jsonSafeFields rest') = true := hsafe
      rw [Bool.and_eq_true] at h'
      have hdv : pdepth v < f := by
        rw [show pdepthFields ((k, v) :: rest')
            = 1 + max (pdepth v) (pdepthFields rest') from rfl] at hfuel
        omega
      cases rest' with
      | nil =>
        rw [show joinComma ([(k, v)].map (fun kv => quoteStr kv.1 ++ ':' :: strV kv.2))
            = quoteStr k ++ ':' :: strV v from rfl]
        rw [show (quoteStr k ++ ':' :: strV v) ++ '\x7d' :: rest
            = '"' :: (escapeChars k.data ++ '"' :: (':' :: (strV v ++ '\x7d' :: rest))) by
          rw [quoteStr]
          simp]
        have hk := parseStringBody_quote k (':' :: (strV v ++ '\x7d' :: rest))
        have hv := parseVal_strV f v ('\x7d' :: rest) h'.1 hdv rfl
        show (match parseStringBody
                (escapeChars k.data ++ '"' :: (':' :: (strV v ++ '\x7d' :: rest))) [] with
              | none => none
              | some (key, r1) =>
                match r1 with
                | ':' :: r2 =>
                  (match parseVal f r2 with
                   | none => none
                   | some (w, r3) =>
                     match r3 with
                     | ',' :: r4 =>
                       (match parseFields f r4 with
                        | some (fs, r5) => some ((key, w) :: fs, r5)
                        | none => none)
                     | '\x7d' :: r4 => some ([(key, w)], r4)
                     | _ => none)
                | _ => none)
            = some ([(k, v)], rest)
        rw [hk]
        show (match parseVal f (strV v ++ '\x7d' :: rest) with
              | none => none
              | some (w, r3) =>
                match r3 with
                | ',' :: r4 =>
                  (match parseFields f r4 with
                   | some (fs, r5) => some ((k, w) :: fs, r5)
                   | none => none)
                | '\x7d' :: r4 => some ([(k, w)], r4)
                | _ => none)
            = some ([(k, v)], rest)
        rw [hv]
        rfl
      | cons kw rest'' =>
        have hds : pdepthFields (kw :: rest'') < f := by
          rw [show pdepthFields ((k, v) :: kw :: rest'')
              = 1 + max (pdepth v) (pdepthFields (kw :: rest'')) from rfl] at hfuel
          omega
        rw [List.map_cons, joinComma_cons _ _ (by simp)]
        rw [show ((fun kv : String × JsValue => quoteStr kv.1 ++ ':' :: strV kv.2) (k, v)
              ++ ',' :: joinComma ((kw :: rest'').map
                  (fun kv => quoteStr kv.1 ++ ':' :: strV kv.2))) ++ '\x7d' :: rest
            = '"' :: (escapeChars k.data ++ '"' :: (':' :: (strV v
                ++ ',' :: (joinComma ((kw :: rest'').map
                    (fun kv => quoteStr kv.1 ++ ':' :: strV kv.2)) ++ '\x7d' :: rest)))) by
          rw [show (fun kv : String × JsValue => quoteStr kv.1 ++ ':' :: strV kv.2) (k, v)
              = quoteStr k ++ ':' :: strV v from rfl]
          rw [quoteStr]
          simp]
        have hk := parseStringBody_quote k (':' :: (strV v
          ++ ',' :: (joinComma ((kw :: rest'').map
              (fun kv => quoteStr kv.1 ++ ':' :: strV kv.2)) ++ '\x7d' :: rest)))
        have hv := parseVal_strV f v
          (',' :: (joinComma ((kw :: rest'').map
              (fun kv => quoteStr kv.1 ++ ':' :: strV kv.2)) ++ '\x7d' :: rest)) h'.1 hdv rfl
        have hrec := parseFields_strV f (kw :: rest'') rest (by simp) h'.2 hds
        show (match parseStringBody
                (escapeChars k.data ++ '"' :: (':' :: (strV v
                  ++ ',' :: (joinComma ((kw :: rest'').map
                      (fun kv => quoteStr kv.1 ++ ':' :: strV kv.2)) ++ '\x7d' :: rest)))) [] with
              | none => none
              | some (key, r1) =>
                match r1 with
                | ':' :: r2 =>
                  (match parseVal f r2 with
                   | none => none
                   | some (w, r3) =>
                     match r3 with
                     | ',' :: r4 =>
                       (match parseFields f r4 with
                        | some (fs, r5) => some ((key, w) :: fs, r5)
                        | none => none)
                     | '\x7d' :: r4 => some ([(key, w)], r4)
                     | _ => none)
                | _ => none)
            = some ((k, v) :: kw :: rest'', rest)
        rw [hk]
        show (match parseVal f (strV v
                ++ ',' :: (joinComma ((kw :: rest'').map
                    (fun kv => quoteStr kv.1 ++ ':' :: strV kv.2)) ++ '\x7d' :: rest)) with
              | none => none
              | some (w, r3) =>
                match r3 with
                | ',' :: r4 =>
                  (match parseFields f r4 with
                   | some (fs, r5) => some ((k, w) :: fs, r5)
                   | none => none)
                | '\x7d' :: r4 => some ([(k, w)], r4)
                | _ => none)
            = some ((k, v) :: kw :: rest'', rest)
        rw [hv]
        show (match parseFields f (joinComma ((kw :: rest'').map
                (fun kv => quoteStr kv.1 ++ ':' :: strV kv.2)) ++ '\x7d' :: rest) with
              | some (fs, r5) => some ((k, v) :: fs, r5)
              | none => none)
            = some ((k, v) :: kw :: rest'', rest)
        rw [hrec]
end

/-- Parsing the full JSON serialization of a representable value recovers
the value exactly. -/
theorem jsonParse_stringify (v : JsValue) (h : jsonSafe v = true) :
    jsonParse (jsonStringify v) = some v := by
  have hdata : (jsonStringify v).data = strV v := rfl
  have hlen : (jsonStringify v).length = (strV v).length := rfl
  rw [jsonParse, hdata, hlen]
  have hfuel : pdepth v < (strV v).length + 1 := by
    have := pdepth_le v h
    omega
  have hp := parseVal_strV ((strV v).length + 1) v [] h hfuel rfl
  rw [List.append_nil] at hp
  rw [hp]

/-- C9 (amended): for every composite input whose contents are
JSON-representable (null, booleans, numbers, strings, and arrays/objects
of such, object keys distinct — no undefined, function, Date or Buffer
parts), the Value Normalizer returns exactly the value's JSON
serialization, and JSON-parsing that string back yields the original
value (round-trip). For composite values with non-representable parts the
serialization drops or rewrites them and the round-trip fails. -/
theorem stringify_parse_roundtrip (v : JsValue) (hcomp : isComposite v = true)
    (hsafe : jsonSafe v = true) :
    convertToOracleType v = .ostr (jsonStringify v)
    ∧ jsonParse (jsonStringify v) = some v := by
  refine ⟨?_, jsonParse_stringify v hsafe⟩
  cases v with
  | vobj fields => rfl
  | varr elems => rfl
  | vnull => exact absurd hcomp Bool.false_ne_true
  | vundefined => exact absurd hcomp Bool.false_ne_true
  | vbool b => exact absurd hcomp Bool.false_ne_true
  | vnum n => exact absurd hcomp Bool.false_ne_true
  | vstr s => exact absurd hcomp Bool.false_ne_true
  | vdate iso => exact absurd hcomp Bool.false_ne_true
  | vbuffer bytes => exact absurd hcomp Bool.false_ne_true
  | vother r => exact absurd hcomp Bool.false_ne_true

/-- C9 witness: the round-trip theorem at a concrete object with a string,
a number, a boolean, a null and a nested array, all hypotheses discharged
by evaluation. -/
theorem stringify_parse_roundtrip_witness :
    convertToOracleType
        (.vobj [("name", .vstr "John"), ("id", .vnum 1001), ("ok", .vbool true),
                ("note", .vnull), ("tags", .varr [.vnum (-2), .vstr "a\nb"])])
      = .ostr "\x7b\"name\":\"John\",\"id\":1001,\"ok\":true,\"note\":null,\"tags\":[-2,\"a\\nb\"]\x7d"
    ∧ jsonParse "\x7b\"name\":\"John\",\"id\":1001,\"ok\":true,\"note\":null,\"tags\":[-2,\"a\\nb\"]\x7d"
      = some (.vobj [("name", .vstr "John"), ("id", .vnum 1001), ("ok", .vbool true),
                     ("note", .vnull), ("tags", .varr [.vnum (-2), .vstr "a\nb"])]) := by
  have h := stringify_parse_roundtrip
    (.vobj [("name", .vstr "John"), ("id", .vnum 1001), ("ok", .vbool true),
            ("note", .vnull), ("tags", .varr [.vnum (-2), .vstr "a\nb"])])
    rfl (by decide)
  have he : jsonStringify
      (.vobj [("name", .vstr "John"), ("id", .vnum 1001), ("ok", .vbool true),
              ("note", .vnull), ("tags", .varr [.vnum (-2), .vstr "a\nb"])])
      = "\x7b\"name\":\"John\",\"id\":1001,\"ok\":true,\"note\":null,\"tags\":[-2,\"a\\nb\"]\x7d" :=
    rfl
  rw [he] at h
  exact h

/-- C9 counterexample: the composite value with one undefined-valued field
serializes to the empty object (stringify drops the member), and
re-parsing yields the empty object — not a structurally equal value — so
the round-trip fails for arbitrary composite inputs. -/
theorem undefined_field_roundtrip_counterexample :
    convertToOracleType (.vobj [("a", .vundefined)]) = .ostr "\x7b\x7d"
    ∧ jsonParse "\x7b\x7d" = some (.vobj [])
    ∧ JsValue.vobj [] ≠ .vobj [("a", .vundefined)] := by
  refine ⟨rfl, rfl, ?_⟩
  intro h
  simp at h

end OracleDbNode
